import Mathlib

/-!
# Verification of the `file_organiser` categorization engine

Shallow embedding of `src/main.py`:

* `FileCategorizer.__init__` (line 13) normalizes mapping keys with
  `k.lower().lstrip('.')` — modelled by `normalizeKey` and `mkExtMap`
  (a Python dict comprehension is a left fold of ordered inserts).
* `FileCategorizer.categorize` (lines 15-28) scans the top-level listing,
  keeps regular files, computes `item.suffix.lower().lstrip('.')`
  (`fileExt`, with `pySuffix` modelling `pathlib.PurePath.suffix`),
  and appends matched names with `result.setdefault(folder, []).append(...)`
  (`addFile`).
* `FileOrganizerGUI.preview` (lines 116-134): the categorization call is
  `previewOp`; the tkinter rendering is out of scope.
* `FileOrganizerGUI.done` (lines 136-158): `done` / `doneGo` / `moveLoop`
  model the group loop with `target_dir.mkdir(exist_ok=True)`
  (`pyMkdirExistOk`; raises `FileExistsError` when the path is occupied by a
  regular file, and the call is *not* inside the `try`) and the per-file
  `src.rename(dst)` guarded by `try/except` (failures append to the list of
  error dialogs and the loop continues).

The filesystem is a single directory level: `FS.root` is the listing of the
selected directory and `FS.subFiles` maps each subfolder name to the file
names inside it.  External move failures (permissions, cross-device, ...)
are abstracted by an oracle `extFail : String → Bool` telling which renames
raise; every raised exception in the move loop is caught by the source's
`except` clause, so only its occurrence matters.
-/

set_option autoImplicit false

namespace FileOrganiser

/-- One immediate child of the scanned directory: its final name and whether
`item.is_file()` holds (directories have `isFile = false`). -/
structure Entry where
  name : String
  isFile : Bool
deriving DecidableEq

/-- One directory level of filesystem state: the listing of the selected
directory, and the file names inside each subfolder of it. -/
structure FS where
  root : List Entry
  subFiles : List (String × List String)
deriving DecidableEq

/-- The Python exceptions the modelled code can raise. -/
inductive PyExn where
  | fileNotFound
  | notADirectory
  | fileExists
  | osError
deriving DecidableEq

/-- State of the user-supplied path: absent, present but a regular file,
or a directory with contents `fs`. -/
inductive DirState where
  | missing
  | notDir
  | dir (fs : FS)
deriving DecidableEq

/-- `Path.iterdir()`: raises `FileNotFoundError` on a missing path and
`NotADirectoryError` on a non-directory; otherwise yields the listing
(we return the whole `FS`, whose `root` is the listing). -/
def pyIterdir : DirState → Except PyExn FS
  | .missing => .error .fileNotFound
  | .notDir => .error .notADirectory
  | .dir fs => .ok fs

/-- Python `str.lower` on one character (ASCII range, the relevant one). -/
def pyToLower (c : Char) : Char :=
  if 'A' ≤ c ∧ c ≤ 'Z' then Char.ofNat (c.toNat + 32) else c

/-- Python `str.lower`. -/
def pyLower (s : String) : String :=
  ⟨s.data.map pyToLower⟩

/-- Python `str.lstrip('.')`: drop every leading dot. -/
def pyLstripDots (s : String) : String :=
  ⟨s.data.dropWhile (fun c => c == '.')⟩

/-- Index of the last `'.'` in a list of characters (`str.rfind('.')`). -/
def lastDot : List Char → Option Nat
  | [] => none
  | c :: cs =>
    match lastDot cs with
    | some i => some (i + 1)
    | none => if c = '.' then some 0 else none

/-- `pathlib.PurePath.suffix`: the part of the name from its last dot on,
provided that dot is neither the first nor the last character; otherwise
the empty string. -/
def pySuffix (name : String) : String :=
  match lastDot name.data with
  | none => ""
  | some i => if 0 < i ∧ i + 1 < name.data.length then ⟨name.data.drop i⟩ else ""

/-- Key normalization of `FileCategorizer.__init__` (line 13):
`k.lower().lstrip('.')`. -/
def normalizeKey (k : String) : String :=
  pyLstripDots (pyLower k)

/-- The extension `categorize` computes for a file (line 24):
`item.suffix.lower().lstrip('.')`. -/
def fileExt (name : String) : String :=
  pyLstripDots (pyLower (pySuffix name))

/-- Python dict insertion: overwrite the value of an existing key in place,
else append the new binding. -/
def dictInsert {α : Type} (d : List (String × α)) (k : String) (v : α) :
    List (String × α) :=
  match d with
  | [] => [(k, v)]
  | (k1, v1) :: rest =>
    if k1 = k then (k, v) :: rest else (k1, v1) :: dictInsert rest k v

/-- Python dict lookup. -/
def dictLookup {α : Type} (d : List (String × α)) (k : String) : Option α :=
  match d with
  | [] => none
  | (k1, v1) :: rest => if k1 = k then some v1 else dictLookup rest k

/-- `FileCategorizer.__init__`: build the normalized extension map from the
user-supplied bindings in order (`{k.lower().lstrip('.'): v for k, v in
ext_map.items()}`). -/
def mkExtMap (m : List (String × String)) : List (String × String) :=
  m.foldl (fun d kv => dictInsert d (normalizeKey kv.1) kv.2) []

/-- `result.setdefault(folder, []).append(name)`: append `name` to the
group of `folder`, creating the group at the end if absent. -/
def addFile (r : List (String × List String)) (folder name : String) :
    List (String × List String) :=
  match r with
  | [] => [(folder, [name])]
  | (g, gs) :: rest =>
    if g = folder then (g, gs ++ [name]) :: rest
    else (g, gs) :: addFile rest folder name

/-- Loop body of `FileCategorizer.categorize` (lines 22-27). -/
def categorizeStep (c : List (String × String)) (result : List (String × List String))
    (item : Entry) : List (String × List String) :=
  if item.isFile then
    match dictLookup c (fileExt item.name) with
    | some folder => addFile result folder item.name
    | none => result
  else result

/-- `FileCategorizer.categorize` on an already-obtained listing. -/
def categorize (c : List (String × String)) (listing : List Entry) :
    List (String × List String) :=
  listing.foldl (categorizeStep c) []

/-- The categorization call of `FileOrganizerGUI.preview` (lines 125-126):
construct the categorizer from the mapping rows and run `categorize` on the
selected directory; the directory state is threaded through untouched
because the call performs no filesystem mutation. -/
def previewOp (m : List (String × String)) (d : DirState) :
    Except PyExn (List (String × List String)) × DirState :=
  match pyIterdir d, d with
  | .error e, d1 => (.error e, d1)
  | .ok fs, d1 => (.ok (categorize (mkExtMap m) fs.root), d1)

/-- `target_dir.mkdir(exist_ok=True)` (line 150): a no-op when the path is
already a directory, `FileExistsError` when it is occupied by a regular
file, otherwise the subfolder is created (empty). -/
def pyMkdirExistOk (fs : FS) (folder : String) : Except PyExn FS :=
  match fs.root.find? (fun e => e.name == folder) with
  | some e => if e.isFile then .error .fileExists else .ok fs
  | none =>
    .ok { root := fs.root ++ [⟨folder, false⟩], subFiles := fs.subFiles ++ [(folder, [])] }

/-- Put file `f` into subfolder `folder`, replacing a file of the same name
(POSIX `rename` overwrites an existing destination file). -/
def addSub (sub : List (String × List String)) (folder f : String) :
    List (String × List String) :=
  match sub with
  | [] => [(folder, [f])]
  | (g, gs) :: rest =>
    if g = folder then (g, gs.filter (fun x => x ≠ f) ++ [f]) :: rest
    else (g, gs) :: addSub rest folder f

/-- `src.rename(dst)` (line 155) with `src = dir/f` and `dst = dir/folder/f`:
fails when the environment makes it fail (`extFail`, covering permission
errors and other OS-level conditions) or when no regular file named `f`
exists at the root any more; on success the file leaves the root listing
and appears in the subfolder under the same base name. -/
def pyRename (fs : FS) (extFail : String → Bool) (f folder : String) :
    Except PyExn FS :=
  if extFail f then .error .osError
  else
    match fs.root.find? (fun e => e.name == f && e.isFile) with
    | none => .error .fileNotFound
    | some _ =>
      .ok { root := fs.root.filter (fun e => !(e.name == f && e.isFile)),
            subFiles := addSub fs.subFiles folder f }

/-- The inner `for filename in files` loop of `done` (lines 151-157): each
rename is inside `try/except`, so a failure appends an error dialog for that
file and the loop continues. -/
def moveLoop (extFail : String → Bool) (folder : String) (files : List String)
    (st : FS × List String) : FS × List String :=
  files.foldl
    (fun st f =>
      match pyRename st.1 extFail f folder with
      | .ok fs1 => (fs1, st.2)
      | .error _ => (st.1, st.2 ++ [f]))
    st

/-- The outer `for folder, files in result.items()` loop of `done`
(lines 148-157).  The `mkdir` call is *outside* the `try`, so its failure
is an uncaught exception: the loop stops there and the exception is
reported in the third component. -/
def doneGo (extFail : String → Bool) :
    List (String × List String) → FS → List String → FS × List String × Option PyExn
  | [], fs, fails => (fs, fails, none)
  | (folder, files) :: rest, fs, fails =>
    match pyMkdirExistOk fs folder with
    | .error e => (fs, fails, some e)
    | .ok fs1 =>
      let st := moveLoop extFail folder files (fs1, fails)
      doneGo extFail rest st.1 st.2

/-- Outcome of one `done` invocation: the directory afterwards, the file
names for which a "Failed to move" dialog was shown, and the uncaught
exception if the invocation aborted (in which case the final "Files have
been organized" box never appears). -/
structure ApplyResult where
  finalDir : DirState
  failures : List String
  exn : Option PyExn
deriving DecidableEq

/-- `FileOrganizerGUI.done` (lines 136-158): categorize once — raising
before any mutation when the directory is bad — then create each group's
subfolder and move its files. -/
def done (m : List (String × String)) (d : DirState) (extFail : String → Bool) :
    ApplyResult :=
  match pyIterdir d with
  | .error e => ⟨d, [], some e⟩
  | .ok fs =>
    let out := doneGo extFail (categorize (mkExtMap m) fs.root) fs []
    ⟨.dir out.1, out.2.1, out.2.2⟩

/-- The directory contents after a `done` run (the run always ends, with or
without an uncaught exception, in a directory state). -/
def finalFS (r : ApplyResult) : FS :=
  match r.finalDir with
  | .dir fs => fs
  | _ => ⟨[], []⟩

/-- The names of the entries of the selected directory. -/
def rootNames (fs : FS) : List String :=
  fs.root.map Entry.name

/-- Is there a regular file named `f` at the root? -/
def hasRootFile (fs : FS) (f : String) : Bool :=
  fs.root.any (fun e => e.name == f && e.isFile)

/-- Is file `f` listed inside subfolder `folder`? -/
def inSub (fs : FS) (folder f : String) : Bool :=
  fs.subFiles.any (fun g => g.1 == folder && g.2.contains f)

/-- Occurrences of `x` in a list of names. -/
def countName (l : List String) (x : String) : Nat :=
  (l.filter (fun y => y == x)).length

/-- All file names of a grouping, in order. -/
def allFiles (r : List (String × List String)) : List String :=
  r.foldr (fun g acc => g.2 ++ acc) []

/-- Whether `categorize` classifies an entry: a regular file whose computed
extension has a mapping entry. -/
def classified (c : List (String × String)) (e : Entry) : Bool :=
  e.isFile && (dictLookup c (fileExt e.name)).isSome

/-- The mapping of the worked example of spec section 8:
`{"jpg": "Images", "pdf": "Documents"}`. -/
def exampleMap : List (String × String) :=
  [("jpg", "Images"), ("pdf", "Documents")]

/-- The directory listing of the worked example of spec section 8. -/
def exampleListing : List Entry :=
  [Entry.mk "a.jpg" true, Entry.mk "b.JPG" true,
   Entry.mk "c.pdf" true, Entry.mk "d.txt" true]

/-- The section-8 directory as filesystem state, with no subfolders yet. -/
def exampleFS : FS := FS.mk exampleListing []

/-- The section-8 directory with, in addition, a regular file named
`Images` occupying the path of the would-be target subfolder. -/
def collisionFS : FS :=
  FS.mk (exampleListing ++ [Entry.mk "Images" true]) []

/-- Environment oracle under which no rename raises. -/
def noFail : String → Bool := fun _ => false

/-- Environment oracle under which exactly the rename of `b.JPG` raises. -/
def failB : String → Bool := fun f => f == "b.JPG"

/-! ## Counting files across groups -/

theorem allFiles_nil : allFiles [] = [] := rfl

theorem allFiles_cons (g : String × List String) (r : List (String × List String)) :
    allFiles (g :: r) = g.2 ++ allFiles r := rfl

theorem countName_nil (x : String) : countName [] x = 0 := rfl

theorem countName_cons (y : String) (l : List String) (x : String) :
    countName (y :: l) x = (if y == x then 1 else 0) + countName l x := by
  simp only [countName, List.filter_cons]
  split <;> simp [Nat.add_comm]

theorem countName_append (a b : List String) (x : String) :
    countName (a ++ b) x = countName a x + countName b x := by
  simp [countName, List.filter_append]

theorem countName_pos (l : List String) (x : String) : 0 < countName l x ↔ x ∈ l := by
  induction l with
  | nil => simp [countName_nil]
  | cons y t ih =>
    rw [countName_cons, List.mem_cons]
    by_cases hy : (y == x) = true
    · have hxy : x = y := (beq_iff_eq.mp hy).symm
      rw [if_pos hy]
      constructor
      · intro h2
        exact Or.inl hxy
      · intro h2
        omega
    · have hxy : ¬x = y := fun h => hy (by simp [h])
      simp [hy, ih, hxy]

theorem countName_allFiles_addFile (r : List (String × List String)) (folder n x : String) :
    countName (allFiles (addFile r folder n)) x
      = countName (allFiles r) x + (if n == x then 1 else 0) := by
  induction r with
  | nil =>
    have ha : addFile [] folder n = [(folder, [n])] := rfl
    simp only [ha, allFiles_cons, allFiles_nil, countName_append, countName_cons,
      countName_nil, List.append_nil]
    split <;> omega
  | cons g rest ih =>
    obtain ⟨g1, gs⟩ := g
    by_cases hg : g1 = folder
    · subst hg
      have ha : addFile ((g1, gs) :: rest) g1 n = (g1, gs ++ [n]) :: rest := by
        simp [addFile]
      simp only [ha, allFiles_cons, countName_append, countName_cons, countName_nil]
      split <;> omega
    · have ha : addFile ((g1, gs) :: rest) folder n = (g1, gs) :: addFile rest folder n := by
        simp [addFile, hg]
      simp only [ha, allFiles_cons, countName_append, ih]
      omega

theorem categorize_count_aux (c : List (String × String)) (listing : List Entry)
    (acc : List (String × List String)) (x : String) :
    countName (allFiles (listing.foldl (categorizeStep c) acc)) x
      = countName (allFiles acc) x
        + (listing.filter (fun e => classified c e && e.name == x)).length := by
  induction listing generalizing acc with
  | nil => simp
  | cons e rest ih =>
    rw [List.foldl_cons, ih, List.filter_cons]
    unfold categorizeStep
    by_cases hf : e.isFile
    · rw [if_pos hf]
      cases hlu : dictLookup c (fileExt e.name) with
      | some folder =>
        have hcl : classified c e = true := by simp [classified, hf, hlu]
        simp only [hlu, countName_allFiles_addFile, hcl, Bool.true_and]
        by_cases hx : (e.name == x) = true
        · simp [hx]
          omega
        · simp [hx]
      | none =>
        have hcl : classified c e = false := by simp [classified, hlu]
        simp [hlu, hcl]
    · rw [if_neg hf]
      have hcl : classified c e = false := by simp [classified, hf]
      simp [hcl]

theorem categorize_count (c : List (String × String)) (listing : List Entry) (x : String) :
    countName (allFiles (categorize c listing)) x
      = (listing.filter (fun e => classified c e && e.name == x)).length := by
  have h := categorize_count_aux c listing [] x
  simpa [categorize, allFiles_nil, countName_nil] using h

/-! ## Where a grouped file comes from -/

theorem mem_allFiles_exists_entry (c : List (String × String)) (listing : List Entry)
    (f : String) (hf : f ∈ allFiles (categorize c listing)) :
    ∃ e ∈ listing, e.name = f ∧ classified c e = true := by
  have hpos : 0 < countName (allFiles (categorize c listing)) f :=
    (countName_pos _ _).mpr hf
  rw [categorize_count] at hpos
  rcases List.exists_mem_of_length_pos hpos with ⟨e, he⟩
  rcases List.mem_filter.mp he with ⟨hmem, hpred⟩
  have hpred2 : classified c e = true ∧ e.name = f := by simpa using hpred
  exact ⟨e, hmem, hpred2.2, hpred2.1⟩

theorem addFile_mem (r : List (String × List String)) (folder n g : String)
    (gs : List String) (h : (g, gs) ∈ addFile r folder n) :
    (g, gs) ∈ r ∨ (g = folder ∧ (gs = [n] ∨ ∃ gs0, (g, gs0) ∈ r ∧ gs = gs0 ++ [n])) := by
  induction r with
  | nil =>
    have ha : addFile [] folder n = [(folder, [n])] := rfl
    rw [ha, List.mem_singleton] at h
    exact Or.inr ⟨congrArg Prod.fst h, Or.inl (congrArg Prod.snd h)⟩
  | cons p rest ih =>
    obtain ⟨p1, ps⟩ := p
    by_cases hp : p1 = folder
    · subst hp
      have ha : addFile ((p1, ps) :: rest) p1 n = (p1, ps ++ [n]) :: rest := by
        simp [addFile]
      rw [ha, List.mem_cons] at h
      rcases h with h | h
      · have h1 : g = p1 := congrArg Prod.fst h
        exact Or.inr ⟨h1, Or.inr ⟨ps, by rw [h1]; exact List.mem_cons_self _ _,
          congrArg Prod.snd h⟩⟩
      · exact Or.inl (List.mem_cons_of_mem _ h)
    · have ha : addFile ((p1, ps) :: rest) folder n = (p1, ps) :: addFile rest folder n := by
        simp [addFile, hp]
      rw [ha, List.mem_cons] at h
      rcases h with h | h
      · exact Or.inl (by rw [h]; exact List.mem_cons_self _ _)
      · rcases ih h with h1 | ⟨hg, h2⟩
        · exact Or.inl (List.mem_cons_of_mem _ h1)
        · refine Or.inr ⟨hg, ?_⟩
          rcases h2 with h2 | ⟨gs0, hgs0, hgs⟩
          · exact Or.inl h2
          · exact Or.inr ⟨gs0, List.mem_cons_of_mem _ hgs0, hgs⟩

theorem categorize_folder_sound_aux (c : List (String × String)) (listing : List Entry)
    (acc : List (String × List String))
    (hacc : ∀ g gs, (g, gs) ∈ acc → ∀ f ∈ gs, dictLookup c (fileExt f) = some g) :
    ∀ g gs, (g, gs) ∈ listing.foldl (categorizeStep c) acc →
      ∀ f ∈ gs, dictLookup c (fileExt f) = some g := by
  induction listing generalizing acc with
  | nil => simpa using hacc
  | cons e rest ih =>
    rw [List.foldl_cons]
    refine ih _ ?_
    intro g gs hmem f hfgs
    unfold categorizeStep at hmem
    by_cases hf : e.isFile
    · cases hlu : dictLookup c (fileExt e.name) with
      | some folder =>
        rw [if_pos hf, hlu] at hmem
        rcases addFile_mem _ _ _ _ _ hmem with h | ⟨hg, h⟩
        · exact hacc g gs h f hfgs
        · subst hg
          rcases h with h | ⟨gs0, hgs0, hgs⟩
          · subst h
            rcases List.mem_singleton.mp hfgs with rfl
            exact hlu
          · subst hgs
            rcases List.mem_append.mp hfgs with h1 | h1
            · exact hacc g gs0 hgs0 f h1
            · rcases List.mem_singleton.mp h1 with rfl
              exact hlu
      | none =>
        rw [if_pos hf, hlu] at hmem
        exact hacc g gs hmem f hfgs
    · rw [if_neg hf] at hmem
      exact hacc g gs hmem f hfgs

/-- Every file listed under a folder of `categorize`'s result got there
through a mapping entry for its own extension. -/
theorem categorize_folder_sound (c : List (String × String)) (listing : List Entry)
    (g : String) (gs : List String) (h : (g, gs) ∈ categorize c listing)
    (f : String) (hf : f ∈ gs) : dictLookup c (fileExt f) = some g :=
  categorize_folder_sound_aux c listing [] (by simp) g gs h f hf

theorem countName_files_le (r : List (String × List String)) (folder x : String)
    (files : List String) (h : (folder, files) ∈ r) :
    countName files x ≤ countName (allFiles r) x := by
  induction r with
  | nil => simp at h
  | cons p rest ih =>
    rcases List.mem_cons.mp h with h1 | h1
    · subst h1
      rw [allFiles_cons, countName_append]
      exact Nat.le_add_right _ _
    · rw [allFiles_cons, countName_append]
      exact le_trans (ih h1) (Nat.le_add_left _ _)

/-! ## Filesystem primitive lemmas -/

theorem contains_mem (l : List String) (a : String) : l.contains a = true ↔ a ∈ l := by
  simp [List.contains, List.elem_iff]

theorem hasRootFile_iff (fs : FS) (f : String) :
    hasRootFile fs f = true ↔ ∃ e ∈ fs.root, e.name = f ∧ e.isFile = true := by
  unfold hasRootFile
  simp [List.any_eq_true]

theorem inSub_iff (fs : FS) (folder f : String) :
    inSub fs folder f = true ↔ ∃ p ∈ fs.subFiles, p.1 = folder ∧ f ∈ p.2 := by
  unfold inSub
  simp [List.any_eq_true, contains_mem]

theorem pyMkdirExistOk_ok (fs : FS) (folder : String) (fs1 : FS)
    (h : pyMkdirExistOk fs folder = .ok fs1) :
    fs1 = fs
    ∨ (fs1.root = fs.root ++ [⟨folder, false⟩]
        ∧ fs1.subFiles = fs.subFiles ++ [(folder, [])]) := by
  unfold pyMkdirExistOk at h
  cases hfind : fs.root.find? (fun e => e.name == folder) with
  | some e =>
    rw [hfind] at h
    by_cases hef : e.isFile
    · simp [hef] at h
    · simp only [hef, if_false, Bool.false_eq_true, if_neg] at h
      cases h
      exact Or.inl rfl
  | none =>
    rw [hfind] at h
    cases h
    exact Or.inr ⟨rfl, rfl⟩

theorem pyRename_ok (fs : FS) (extFail : String → Bool) (f folder : String) (fs1 : FS)
    (h : pyRename fs extFail f folder = .ok fs1) :
    extFail f = false
    ∧ fs1.root = fs.root.filter (fun e => !(e.name == f && e.isFile))
    ∧ fs1.subFiles = addSub fs.subFiles folder f := by
  unfold pyRename at h
  by_cases hef : extFail f = true
  · rw [if_pos hef] at h
    cases h
  · rw [if_neg hef] at h
    cases hfind : fs.root.find? (fun e => e.name == f && e.isFile) with
    | none => rw [hfind] at h; cases h
    | some e =>
      rw [hfind] at h
      cases h
      exact ⟨Bool.not_eq_true _ ▸ hef, rfl, rfl⟩

theorem pyRename_eq_ok (fs : FS) (extFail : String → Bool) (f folder : String)
    (hef : extFail f = false) (hrf : hasRootFile fs f = true) :
    pyRename fs extFail f folder
      = .ok ⟨fs.root.filter (fun e => !(e.name == f && e.isFile)),
             addSub fs.subFiles folder f⟩ := by
  unfold pyRename
  rw [if_neg (by simp [hef])]
  cases hfind : fs.root.find? (fun e => e.name == f && e.isFile) with
  | none =>
    exfalso
    unfold hasRootFile at hrf
    rcases List.any_eq_true.mp hrf with ⟨e, he, hp⟩
    exact (List.find?_eq_none.mp hfind e he) hp
  | some e => rfl

theorem pyRename_eq_error (fs : FS) (extFail : String → Bool) (f folder : String)
    (hef : extFail f = true) :
    pyRename fs extFail f folder = .error .osError := by
  unfold pyRename
  rw [if_pos hef]

/-- A file placed in a subfolder is still there after any further `addSub`. -/
theorem inSub_addSub_mono (sub : List (String × List String)) (folder f folder2 g : String)
    (h : sub.any (fun p => p.1 == folder && p.2.contains f) = true) :
    (addSub sub folder2 g).any (fun p => p.1 == folder && p.2.contains f) = true := by
  induction sub with
  | nil => simp at h
  | cons p rest ih =>
    obtain ⟨p1, ps⟩ := p
    by_cases hp : p1 = folder2
    · subst hp
      have ha : addSub ((p1, ps) :: rest) p1 g = (p1, ps.filter (fun x => x ≠ g) ++ [g]) :: rest := by
        simp [addSub]
      rw [ha]
      rcases List.any_eq_true.mp h with ⟨q, hq, hqp⟩
      rcases List.mem_cons.mp hq with rfl | hq2

      · rcases Bool.and_eq_true_iff.mp hqp with ⟨hq1, hq2⟩
        apply List.any_eq_true.mpr
        refine ⟨(p1, ps.filter (fun x => x ≠ g) ++ [g]), List.mem_cons_self _ _, ?_⟩
        apply Bool.and_eq_true_iff.mpr
        refine ⟨hq1, ?_⟩
        rw [contains_mem]
        by_cases hfg : f = g
        · subst hfg
          exact List.mem_append_right _ (List.mem_singleton.mpr rfl)
        · apply List.mem_append_left
          apply List.mem_filter.mpr
          exact ⟨(contains_mem _ _).mp hq2, by simp [hfg]⟩
      · apply List.any_eq_true.mpr
        exact ⟨q, List.mem_cons_of_mem _ hq2, hqp⟩
    · have ha : addSub ((p1, ps) :: rest) folder2 g = (p1, ps) :: addSub rest folder2 g := by
        simp [addSub, hp]
      rw [ha]
      rcases List.any_eq_true.mp h with ⟨q, hq, hqp⟩
      rcases List.mem_cons.mp hq with rfl | hq2
      · exact List.any_eq_true.mpr ⟨(p1, ps), List.mem_cons_self _ _, hqp⟩
      · have h3 := ih (List.any_eq_true.mpr ⟨q, hq2, hqp⟩)
        rcases List.any_eq_true.mp h3 with ⟨q2, hq2m, hq2p⟩
        exact List.any_eq_true.mpr ⟨q2, List.mem_cons_of_mem _ hq2m, hq2p⟩

theorem inSub_addSub_self (sub : List (String × List String)) (folder f : String) :
    (addSub sub folder f).any (fun p => p.1 == folder && p.2.contains f) = true := by
  induction sub with
  | nil =>
    have ha : addSub [] folder f = [(folder, [f])] := rfl
    rw [ha]
    simp [contains_mem]
  | cons p rest ih =>
    obtain ⟨p1, ps⟩ := p
    by_cases hp : p1 = folder
    · subst hp
      have ha : addSub ((p1, ps) :: rest) p1 f
          = (p1, ps.filter (fun x => x ≠ f) ++ [f]) :: rest := by
        simp [addSub]
      rw [ha]
      apply List.any_eq_true.mpr
      refine ⟨(p1, ps.filter (fun x => x ≠ f) ++ [f]), List.mem_cons_self _ _, ?_⟩
      apply Bool.and_eq_true_iff.mpr
      exact ⟨by simp, (contains_mem _ _).mpr
        (List.mem_append_right _ (List.mem_singleton.mpr rfl))⟩
    · have ha : addSub ((p1, ps) :: rest) folder f = (p1, ps) :: addSub rest folder f := by
        simp [addSub, hp]
      rw [ha]
      rcases List.any_eq_true.mp ih with ⟨q, hq, hqp⟩
      exact List.any_eq_true.mpr ⟨q, List.mem_cons_of_mem _ hq, hqp⟩

theorem any_append_one {α : Type} (l : List α) (x : α) (p : α → Bool)
    (h : l.any p = true) : (l ++ [x]).any p = true := by
  rcases List.any_eq_true.mp h with ⟨a, ha, hp⟩
  exact List.any_eq_true.mpr ⟨a, List.mem_append_left _ ha, hp⟩

theorem any_filter_false {α : Type} (l : List α) (p q : α → Bool)
    (h : l.any p = false) : (l.filter q).any p = false := by
  rw [List.any_eq_false] at h ⊢
  intro a ha
  exact h a (List.mem_filter.mp ha).1

theorem any_append_dir_false (l : List Entry) (folder f : String)
    (h : l.any (fun e => e.name == f && e.isFile) = false) :
    (l ++ [Entry.mk folder false]).any (fun e => e.name == f && e.isFile) = false := by
  rw [List.any_eq_false] at h ⊢
  intro e he
  rcases List.mem_append.mp he with he1 | he1
  · exact h e he1
  · rcases List.mem_singleton.mp he1 with rfl
    simp

theorem hasRootFile_filter_ne (l : List Entry) (f f1 : String) (hne : f1 ≠ f)
    (h : l.any (fun e => e.name == f && e.isFile) = true) :
    (l.filter (fun e => !(e.name == f1 && e.isFile))).any
      (fun e => e.name == f && e.isFile) = true := by
  rcases List.any_eq_true.mp h with ⟨e, he, hp⟩
  rcases Bool.and_eq_true_iff.mp hp with ⟨hn, hef⟩
  apply List.any_eq_true.mpr
  refine ⟨e, List.mem_filter.mpr ⟨he, ?_⟩, hp⟩
  have hb : (e.name == f1) = false := by
    have hnf : e.name = f := beq_iff_eq.mp hn
    have : f ≠ f1 := fun h2 => hne h2.symm
    simp [hnf, this]
  simp [hb]

theorem hasRootFile_filter_self (l : List Entry) (f : String) :
    (l.filter (fun e => !(e.name == f && e.isFile))).any
      (fun e => e.name == f && e.isFile) = false := by
  rw [List.any_eq_false]
  intro e he
  rcases List.mem_filter.mp he with ⟨_, hq⟩
  have hb : (e.name == f && e.isFile) = false := by
    cases hc : (e.name == f && e.isFile) with
    | false => rfl
    | true => rw [hc] at hq; simp at hq
  simp [hb]

/-! ## The move loop -/

theorem moveLoop_nil (extFail : String → Bool) (folder : String) (st : FS × List String) :
    moveLoop extFail folder [] st = st := rfl

theorem moveLoop_cons (extFail : String → Bool) (folder f1 : String) (rest : List String)
    (st : FS × List String) :
    moveLoop extFail folder (f1 :: rest) st
      = moveLoop extFail folder rest
          (match pyRename st.1 extFail f1 folder with
           | .ok fs1 => (fs1, st.2)
           | .error _ => (st.1, st.2 ++ [f1])) := rfl

theorem moveLoop_pres (extFail : String → Bool) (folder : String) (files : List String)
    (P : FS → Prop)
    (hstep : ∀ fs f1 fs1, f1 ∈ files → P fs →
      pyRename fs extFail f1 folder = .ok fs1 → P fs1) :
    ∀ st : FS × List String, P st.1 → P (moveLoop extFail folder files st).1 := by
  induction files with
  | nil => intro st h; exact h
  | cons f1 rest ih =>
    intro st h
    rw [moveLoop_cons]
    cases hr : pyRename st.1 extFail f1 folder with
    | ok fs1 =>
      simp only [hr]
      exact ih (fun fs g fsg hg => hstep fs g fsg (List.mem_cons_of_mem _ hg)) (fs1, st.2)
        (hstep st.1 f1 fs1 (List.mem_cons_self _ _) h hr)
    | error e =>
      simp only [hr]
      exact ih (fun fs g fsg hg => hstep fs g fsg (List.mem_cons_of_mem _ hg))
        (st.1, st.2 ++ [f1]) h

theorem moveLoop_fails_mono (extFail : String → Bool) (folder : String)
    (files : List String) (f : String) :
    ∀ st : FS × List String, f ∈ st.2 → f ∈ (moveLoop extFail folder files st).2 := by
  induction files with
  | nil => intro st h; exact h
  | cons f1 rest ih =>
    intro st h
    rw [moveLoop_cons]
    cases hr : pyRename st.1 extFail f1 folder with
    | ok fs1 => simp only [hr]; exact ih (fs1, st.2) h
    | error e => simp only [hr]; exact ih (st.1, st.2 ++ [f1]) (List.mem_append_left _ h)

theorem moveLoop_rootFileTrue (extFail : String → Bool) (folder : String)
    (files : List String) (f : String) (hnf : f ∉ files) :
    ∀ st : FS × List String, hasRootFile st.1 f = true →
      hasRootFile (moveLoop extFail folder files st).1 f = true := by
  refine moveLoop_pres extFail folder files (fun fs => hasRootFile fs f = true) ?_
  intro fs f1 fs1 hf1 hp hr
  rcases pyRename_ok fs extFail f1 folder fs1 hr with ⟨_, hroot, _⟩
  unfold hasRootFile at hp ⊢
  rw [hroot]
  exact hasRootFile_filter_ne fs.root f f1 (fun h2 => hnf (h2 ▸ hf1)) hp

theorem moveLoop_rootFileFalse (extFail : String → Bool) (folder : String)
    (files : List String) (f : String) :
    ∀ st : FS × List String, hasRootFile st.1 f = false →
      hasRootFile (moveLoop extFail folder files st).1 f = false := by
  refine moveLoop_pres extFail folder files (fun fs => hasRootFile fs f = false) ?_
  intro fs f1 fs1 _ hp hr
  rcases pyRename_ok fs extFail f1 folder fs1 hr with ⟨_, hroot, _⟩
  unfold hasRootFile at hp ⊢
  rw [hroot]
  exact any_filter_false _ _ _ hp

theorem moveLoop_inSub (extFail : String → Bool) (folder : String) (files : List String)
    (folder1 f : String) :
    ∀ st : FS × List String, inSub st.1 folder1 f = true →
      inSub (moveLoop extFail folder files st).1 folder1 f = true := by
  refine moveLoop_pres extFail folder files (fun fs => inSub fs folder1 f = true) ?_
  intro fs f1 fs1 _ hp hr
  rcases pyRename_ok fs extFail f1 folder fs1 hr with ⟨_, _, hsub⟩
  unfold inSub at hp ⊢
  rw [hsub]
  exact inSub_addSub_mono fs.subFiles folder1 f folder f1 hp

theorem moveLoop_entry (extFail : String → Bool) (folder : String) (files : List String)
    (e : Entry) (hne : e.name ∉ files) :
    ∀ st : FS × List String, e ∈ st.1.root → e ∈ (moveLoop extFail folder files st).1.root := by
  refine moveLoop_pres extFail folder files (fun fs => e ∈ fs.root) ?_
  intro fs f1 fs1 hf1 hp hr
  rcases pyRename_ok fs extFail f1 folder fs1 hr with ⟨_, hroot, _⟩
  rw [hroot]
  apply List.mem_filter.mpr
  refine ⟨hp, ?_⟩
  have hb : (e.name == f1) = false := by
    have : e.name ≠ f1 := fun h2 => hne (h2 ▸ hf1)
    simp [this]
  simp [hb]

/-- Per-file outcome of the inner move loop: a file of the group that is
present at the root is either recorded as failed (when its rename raises)
or ends up in the target subfolder and off the root listing. -/
theorem moveLoop_spec (extFail : String → Bool) (folder : String) (files : List String)
    (f : String) :
    ∀ st : FS × List String, f ∈ files → countName files f = 1 →
      hasRootFile st.1 f = true →
      (extFail f = true → f ∈ (moveLoop extFail folder files st).2)
      ∧ (extFail f = false →
          inSub (moveLoop extFail folder files st).1 folder f = true
          ∧ hasRootFile (moveLoop extFail folder files st).1 f = false) := by
  induction files with
  | nil => intro st hf; cases hf
  | cons f1 rest ih =>
    intro st hf hc hrf
    rw [moveLoop_cons]
    by_cases hff : f1 = f
    · subst hff
      have hrest : f1 ∉ rest := by
        rw [countName_cons] at hc
        simp only [beq_self_eq_true, if_true] at hc
        intro hmem
        have := (countName_pos rest f1).mpr hmem
        omega
      constructor
      · intro hef
        rw [pyRename_eq_error st.1 extFail f1 folder hef]
        exact moveLoop_fails_mono extFail folder rest f1 (st.1, st.2 ++ [f1])
          (List.mem_append_right _ (List.mem_singleton.mpr rfl))
      · intro hef
        rw [pyRename_eq_ok st.1 extFail f1 folder hef hrf]
        constructor
        · apply moveLoop_inSub
          unfold inSub
          exact inSub_addSub_self st.1.subFiles folder f1
        · apply moveLoop_rootFileFalse
          unfold hasRootFile
          exact hasRootFile_filter_self st.1.root f1
    · have hf2 : f ∈ rest := by
        rcases List.mem_cons.mp hf with h | h
        · exact absurd h.symm hff
        · exact h
      have hc2 : countName rest f = 1 := by
        rw [countName_cons] at hc
        have hb : (f1 == f) = false := by simp [hff]
        rw [hb] at hc
        simpa using hc
      cases hr : pyRename st.1 extFail f1 folder with
      | ok fs1 =>
        simp only [hr]
        apply ih (fs1, st.2) hf2 hc2
        rcases pyRename_ok st.1 extFail f1 folder fs1 hr with ⟨_, hroot, _⟩
        unfold hasRootFile at hrf ⊢
        rw [hroot]
        exact hasRootFile_filter_ne st.1.root f f1 hff hrf
      | error e =>
        simp only [hr]
        exact ih (st.1, st.2 ++ [f1]) hf2 hc2 hrf

/-! ## The group loop -/

theorem doneGo_nil (extFail : String → Bool) (fs : FS) (fails : List String) :
    doneGo extFail [] fs fails = (fs, fails, none) := rfl

theorem doneGo_cons (extFail : String → Bool) (folder : String) (files : List String)
    (rest : List (String × List String)) (fs : FS) (fails : List String) :
    doneGo extFail ((folder, files) :: rest) fs fails
      = match pyMkdirExistOk fs folder with
        | .error e => (fs, fails, some e)
        | .ok fs1 =>
          doneGo extFail rest (moveLoop extFail folder files (fs1, fails)).1
            (moveLoop extFail folder files (fs1, fails)).2 := rfl

theorem doneGo_fails_mono (extFail : String → Bool) (f : String) :
    ∀ (groups : List (String × List String)) (fs : FS) (fails : List String),
      f ∈ fails → f ∈ (doneGo extFail groups fs fails).2.1 := by
  intro groups
  induction groups with
  | nil => intro fs fails h; exact h
  | cons g rest ih =>
    obtain ⟨folder, files⟩ := g
    intro fs fails h
    rw [doneGo_cons]
    cases hmk : pyMkdirExistOk fs folder with
    | error e => simp only [hmk]; exact h
    | ok fs1 =>
      simp only [hmk]
      exact ih _ _ (moveLoop_fails_mono extFail folder files f (fs1, fails) h)

theorem doneGo_inSub_mono (extFail : String → Bool) (folder1 f : String) :
    ∀ (groups : List (String × List String)) (fs : FS) (fails : List String),
      inSub fs folder1 f = true →
      inSub (doneGo extFail groups fs fails).1 folder1 f = true := by
  intro groups
  induction groups with
  | nil => intro fs fails h; exact h
  | cons g rest ih =>
    obtain ⟨folder, files⟩ := g
    intro fs fails h
    rw [doneGo_cons]
    cases hmk : pyMkdirExistOk fs folder with
    | error e => simp only [hmk]; exact h
    | ok fs1 =>
      simp only [hmk]
      have h1 : inSub fs1 folder1 f = true := by
        rcases pyMkdirExistOk_ok fs folder fs1 hmk with rfl | ⟨_, hsub⟩
        · exact h
        · unfold inSub at h ⊢
          rw [hsub]
          exact any_append_one _ _ _ h
      exact ih _ _ (moveLoop_inSub extFail folder files folder1 f (fs1, fails) h1)

theorem doneGo_rootFileFalse_mono (extFail : String → Bool) (f : String) :
    ∀ (groups : List (String × List String)) (fs : FS) (fails : List String),
      hasRootFile fs f = false →
      hasRootFile (doneGo extFail groups fs fails).1 f = false := by
  intro groups
  induction groups with
  | nil => intro fs fails h; exact h
  | cons g rest ih =>
    obtain ⟨folder, files⟩ := g
    intro fs fails h
    rw [doneGo_cons]
    cases hmk : pyMkdirExistOk fs folder with
    | error e => simp only [hmk]; exact h
    | ok fs1 =>
      simp only [hmk]
      have h1 : hasRootFile fs1 f = false := by
        rcases pyMkdirExistOk_ok fs folder fs1 hmk with rfl | ⟨hroot, _⟩
        · exact h
        · unfold hasRootFile at h ⊢
          rw [hroot]
          exact any_append_dir_false _ _ _ h
      exact ih _ _ (moveLoop_rootFileFalse extFail folder files f (fs1, fails) h1)

theorem doneGo_entry (extFail : String → Bool) (e : Entry) :
    ∀ (groups : List (String × List String)) (fs : FS) (fails : List String),
      e ∈ fs.root → e.name ∉ allFiles groups →
      e ∈ (doneGo extFail groups fs fails).1.root := by
  intro groups
  induction groups with
  | nil => intro fs fails h _; exact h
  | cons g rest ih =>
    obtain ⟨folder, files⟩ := g
    intro fs fails h hna
    rw [allFiles_cons] at hna
    have hnf : e.name ∉ files := fun h2 => hna (List.mem_append_left _ h2)
    have hnr : e.name ∉ allFiles rest := fun h2 => hna (List.mem_append_right _ h2)
    rw [doneGo_cons]
    cases hmk : pyMkdirExistOk fs folder with
    | error e1 => simp only [hmk]; exact h
    | ok fs1 =>
      simp only [hmk]
      have h1 : e ∈ fs1.root := by
        rcases pyMkdirExistOk_ok fs folder fs1 hmk with rfl | ⟨hroot, _⟩
        · exact h
        · rw [hroot]; exact List.mem_append_left _ h
      exact ih _ _ (moveLoop_entry extFail folder files e hnf (fs1, fails) h1) hnr

/-- Per-file outcome of the whole group loop, provided no `mkdir` aborted
the run: a file of some group that is present at the root either gets a
"Failed to move" dialog (when its rename raises) or ends up inside its
group's subfolder and off the root listing. -/
theorem doneGo_spec (extFail : String → Bool) (f folder : String) :
    ∀ (groups : List (String × List String)) (files : List String) (fs : FS)
      (fails : List String),
      (folder, files) ∈ groups → f ∈ files →
      countName (allFiles groups) f = 1 →
      hasRootFile fs f = true →
      (doneGo extFail groups fs fails).2.2 = none →
      (extFail f = true → f ∈ (doneGo extFail groups fs fails).2.1)
      ∧ (extFail f = false →
          inSub (doneGo extFail groups fs fails).1 folder f = true
          ∧ hasRootFile (doneGo extFail groups fs fails).1 f = false) := by
  intro groups
  induction groups with
  | nil => intro files fs fails hmem; cases hmem
  | cons g rest ih =>
    obtain ⟨g1, gfiles⟩ := g
    intro files fs fails hmem hf hcount hrf hexn
    rw [doneGo_cons] at hexn ⊢
    cases hmk : pyMkdirExistOk fs g1 with
    | error e =>
      simp only [hmk] at hexn
      cases hexn
    | ok fs1 =>
      simp only [hmk] at hexn ⊢
      have hrf1 : hasRootFile fs1 f = true := by
        rcases pyMkdirExistOk_ok fs g1 fs1 hmk with rfl | ⟨hroot, _⟩
        · exact hrf
        · unfold hasRootFile at hrf ⊢
          rw [hroot]
          exact any_append_one _ _ _ hrf
      rw [allFiles_cons, countName_append] at hcount
      have hcount2 : countName gfiles f + countName (allFiles rest) f = 1 := hcount
      rcases List.mem_cons.mp hmem with heq | hmem2
      · have hg : folder = g1 := congrArg Prod.fst heq
        have hgf : files = gfiles := congrArg Prod.snd heq
        rw [hg]
        rw [hgf] at hf
        have hpos : 0 < countName gfiles f := (countName_pos gfiles f).mpr hf
        have hc1 : countName gfiles f = 1 := by omega
        have hspec := moveLoop_spec extFail g1 gfiles f (fs1, fails) hf hc1 hrf1
        constructor
        · intro hef
          exact doneGo_fails_mono extFail f rest _ _ (hspec.1 hef)
        · intro hef
          rcases hspec.2 hef with ⟨hin, hno⟩
          exact ⟨doneGo_inSub_mono extFail g1 f rest _ _ hin,
            doneGo_rootFileFalse_mono extFail f rest _ _ hno⟩
      · have hle := countName_files_le rest folder f files hmem2
        have hpos : 0 < countName files f := (countName_pos files f).mpr hf
        have hcr : countName (allFiles rest) f = 1 := by omega
        have hng : countName gfiles f = 0 := by omega
        have hnotg : f ∉ gfiles := by
          intro h2
          have := (countName_pos gfiles f).mpr h2
          omega
        have hrf2 : hasRootFile (moveLoop extFail g1 gfiles (fs1, fails)).1 f = true :=
          moveLoop_rootFileTrue extFail g1 gfiles f hnotg (fs1, fails) hrf1
        exact ih files _ _ hmem2 hf hcr hrf2 hexn

/-! ## Bridging the plan to the filesystem -/

theorem mem_allFiles_of_mem_group (r : List (String × List String)) (folder f : String)
    (files : List String) (hmem : (folder, files) ∈ r) (hf : f ∈ files) :
    f ∈ allFiles r := by
  apply (countName_pos _ _).mp
  have h1 : 0 < countName files f := (countName_pos _ _).mpr hf
  have h2 := countName_files_le r folder f files hmem
  omega

theorem plan_hasRootFile (c : List (String × String)) (fs : FS) (folder f : String)
    (files : List String) (hmem : (folder, files) ∈ categorize c fs.root)
    (hf : f ∈ files) : hasRootFile fs f = true := by
  have h1 : f ∈ allFiles (categorize c fs.root) :=
    mem_allFiles_of_mem_group _ folder f files hmem hf
  rcases mem_allFiles_exists_entry c fs.root f h1 with ⟨e, he, hname, hcl⟩
  rcases Bool.and_eq_true_iff.mp hcl with ⟨hfile, _⟩
  apply (hasRootFile_iff fs f).mpr
  exact ⟨e, he, hname, hfile⟩

theorem plan_count_le_one (c : List (String × String)) (listing : List Entry)
    (hnd : (listing.map Entry.name).Nodup) (f : String) :
    countName (allFiles (categorize c listing)) f ≤ 1 := by
  rw [categorize_count]
  have h1 : (listing.filter (fun e => classified c e && e.name == f)).length
      ≤ List.countP (fun e => e.name == f) listing := by
    rw [← List.countP_eq_length_filter]
    apply List.countP_mono_left
    intro e _ hp
    exact (Bool.and_eq_true_iff.mp hp).2
  have h2 : List.countP (fun e => e.name == f) listing
      = List.count f (listing.map Entry.name) := by
    rw [List.count_eq_countP, List.countP_map]
    rfl
  have h3 : List.count f (listing.map Entry.name) ≤ 1 :=
    List.nodup_iff_count_le_one.mp hnd f
  omega

theorem plan_count_one (c : List (String × String)) (fs : FS) (folder f : String)
    (files : List String) (hnd : (fs.root.map Entry.name).Nodup)
    (hmem : (folder, files) ∈ categorize c fs.root) (hf : f ∈ files) :
    countName (allFiles (categorize c fs.root)) f = 1 := by
  have h1 : f ∈ allFiles (categorize c fs.root) :=
    mem_allFiles_of_mem_group _ folder f files hmem hf
  have h2 : 0 < countName (allFiles (categorize c fs.root)) f :=
    (countName_pos _ _).mpr h1
  have h3 := plan_count_le_one c fs.root hnd f
  omega

theorem filter_name_unique (q : Entry → Bool) :
    ∀ (listing : List Entry), (listing.map Entry.name).Nodup →
      ∀ e ∈ listing,
        (listing.filter (fun x => q x && x.name == e.name)).length
          = if q e then 1 else 0 := by
  intro listing
  induction listing with
  | nil => intro _ e he; cases he
  | cons h t ih =>
    intro hnd e he
    rw [List.map_cons, List.nodup_cons] at hnd
    rcases hnd with ⟨hnm, hndt⟩
    rw [List.filter_cons]
    rcases List.mem_cons.mp he with rfl | het
    · have hbt : (t.filter (fun x => q x && x.name == e.name)) = [] := by
        apply List.filter_eq_nil_iff.mpr
        intro a hat
        have hane : a.name ≠ e.name := by
          intro h2
          exact hnm (h2 ▸ List.mem_map_of_mem Entry.name hat)
        simp [hane]
      by_cases hq : q e
      · simp [hq, hbt]
      · simp [hq, hbt]
    · have hhe : h.name ≠ e.name := by
        intro h2
        exact hnm (h2.symm ▸ List.mem_map_of_mem Entry.name het)
      have hb : (q h && h.name == e.name) = false := by simp [hhe]
      rw [hb]
      simp only [Bool.false_eq_true, if_false]
      exact ih hndt e het

/-! ## Dictionary insertion -/

theorem dictLookup_dictInsert_self {α : Type} (d : List (String × α)) (k : String) (v : α) :
    dictLookup (dictInsert d k v) k = some v := by
  induction d with
  | nil => simp [dictInsert, dictLookup]
  | cons p rest ih =>
    obtain ⟨k1, v1⟩ := p
    by_cases hk : k1 = k
    · have ha : dictInsert ((k1, v1) :: rest) k v = (k, v) :: rest := by
        simp [dictInsert, hk]
      rw [ha]
      simp [dictLookup]
    · have ha : dictInsert ((k1, v1) :: rest) k v = (k1, v1) :: dictInsert rest k v := by
        simp [dictInsert, hk]
      rw [ha]
      have hl : dictLookup ((k1, v1) :: dictInsert rest k v) k
          = dictLookup (dictInsert rest k v) k := by
        simp [dictLookup, hk]
      rw [hl]
      exact ih

/-! ## Extension strings -/

theorem pyToLower_dot : pyToLower '.' = '.' := by decide

theorem pyToLower_ne_dot (c : Char) (h : c ≠ '.') : pyToLower c ≠ '.' := by
  unfold pyToLower
  split
  · rename_i hc
    intro heq
    have h65 : 65 ≤ c.toNat := by
      have h1 := hc.1
      rw [Char.le_def] at h1
      exact h1
    have h90 : c.toNat ≤ 90 := by
      have h1 := hc.2
      rw [Char.le_def] at h1
      exact h1
    have hv : (Char.ofNat (c.toNat + 32)).toNat = c.toNat + 32 := by
      unfold Char.ofNat
      rw [dif_pos]
      · rfl
      · exact Or.inl (by omega)
    have h46 : (Char.ofNat (c.toNat + 32)).toNat = 46 := by rw [heq]; rfl
    omega
  · exact h

theorem not_mem_of_lastDot_none (l : List Char) (h : lastDot l = none) : '.' ∉ l := by
  induction l with
  | nil => simp
  | cons c cs ih =>
    unfold lastDot at h
    cases hl : lastDot cs with
    | some j => rw [hl] at h; cases h
    | none =>
      rw [hl] at h
      by_cases hc : c = '.'
      · rw [if_pos hc] at h; cases h
      · intro hmem
        rcases List.mem_cons.mp hmem with h2 | h2
        · exact hc h2.symm
        · exact ih hl h2

theorem lastDot_eq_none (l : List Char) (h : '.' ∉ l) : lastDot l = none := by
  induction l with
  | nil => rfl
  | cons c cs ih =>
    have hc : c ≠ '.' := fun h2 => h (h2 ▸ List.mem_cons_self _ _)
    have hcs : '.' ∉ cs := fun h2 => h (List.mem_cons_of_mem _ h2)
    unfold lastDot
    rw [ih hcs, if_neg hc]

theorem lastDot_spec (l : List Char) :
    ∀ i : Nat, lastDot l = some i → ∃ t, l.drop i = '.' :: t ∧ '.' ∉ t := by
  induction l with
  | nil => intro i h; cases h
  | cons c cs ih =>
    intro i h
    unfold lastDot at h
    cases hl : lastDot cs with
    | some j =>
      rw [hl] at h
      cases h
      rcases ih j hl with ⟨t, ht, hnt⟩
      exact ⟨t, by simpa using ht, hnt⟩
    | none =>
      rw [hl] at h
      by_cases hc : c = '.'
      · rw [if_pos hc] at h
        cases h
        exact ⟨cs, by simp [hc], not_mem_of_lastDot_none cs hl⟩
      · rw [if_neg hc] at h
        cases h

theorem pySuffix_shape (name : String) (h : pySuffix name ≠ "") :
    ∃ t, (pySuffix name).data = '.' :: t ∧ t ≠ [] ∧ '.' ∉ t := by
  cases hl : lastDot name.data with
  | none =>
    exfalso
    apply h
    unfold pySuffix
    rw [hl]
  | some i =>
    have hps : pySuffix name
        = if 0 < i ∧ i + 1 < name.data.length then ⟨name.data.drop i⟩ else "" := by
      unfold pySuffix
      rw [hl]
    by_cases hcond : 0 < i ∧ i + 1 < name.data.length
    · rw [hps, if_pos hcond]
      rcases lastDot_spec name.data i hl with ⟨t, ht, hnt⟩
      refine ⟨t, by simpa using ht, ?_, hnt⟩
      intro hteq
      have hlen : (name.data.drop i).length = name.data.length - i :=
        List.length_drop i name.data
      rw [ht, hteq] at hlen
      simp only [List.length_cons, List.length_nil] at hlen
      omega
    · rw [hps, if_neg hcond] at h
      exact absurd rfl h

theorem fileExt_of_no_dot (name : String) (h : '.' ∉ name.data) : fileExt name = "" := by
  unfold fileExt pySuffix
  rw [lastDot_eq_none name.data h]
  rfl

theorem fileExt_dotfile (rest : List Char) (h : '.' ∉ rest) :
    fileExt ⟨'.' :: rest⟩ = "" := by
  have hsuf : pySuffix ⟨'.' :: rest⟩ = "" := by
    unfold pySuffix
    have h0 : lastDot (String.data ⟨'.' :: rest⟩) = some 0 := by
      show lastDot ('.' :: rest) = some 0
      unfold lastDot
      rw [lastDot_eq_none rest h, if_pos rfl]
    simp only [h0]
    rw [if_neg (by simp)]
  unfold fileExt
  rw [hsuf]
  rfl

theorem normalizeKey_all_dots (k : String) (h : ∀ ch ∈ k.data, ch = '.') :
    normalizeKey k = "" := by
  unfold normalizeKey pyLower pyLstripDots
  have hall : ∀ ch ∈ k.data.map pyToLower, (ch == '.') = true := by
    intro ch hch
    rcases List.mem_map.mp hch with ⟨c, hc, rfl⟩
    rw [h c hc, pyToLower_dot]
    decide
  have hnil : List.dropWhile (fun c => c == '.')
      (String.data ⟨k.data.map pyToLower⟩) = [] := by
    rw [List.dropWhile_eq_nil_iff]
    exact hall
  rw [hnil]

theorem fileExt_ne_empty_of_suffix (name : String) (h : pySuffix name ≠ "") :
    fileExt name ≠ "" := by
  rcases pySuffix_shape name h with ⟨t, ht, htne, hnt⟩
  cases t with
  | nil => exact absurd rfl htne
  | cons t0 ts =>
    have ht0 : t0 ≠ '.' := fun h2 => hnt (h2 ▸ List.mem_cons_self _ _)
    intro heq
    have hdata := congrArg String.data heq
    unfold fileExt pyLower pyLstripDots at hdata
    rw [show String.data ⟨(pySuffix name).data.map pyToLower⟩
        = (pySuffix name).data.map pyToLower from rfl] at hdata
    rw [ht] at hdata
    simp only [List.map_cons, pyToLower_dot] at hdata
    rw [List.dropWhile_cons] at hdata
    simp only [beq_self_eq_true, if_true] at hdata
    rw [List.dropWhile_cons] at hdata
    have hne : (pyToLower t0 == '.') = false := by
      have h2 := pyToLower_ne_dot t0 ht0
      simp [h2]
    rw [hne] at hdata
    simp at hdata

/-! ## Claim theorems -/

/-- Claim C1, as stated, is false on this code: the claim asserts that every
file of the top-level listing appears in exactly one group of the preview
result, but the GUI variant has no fallback group, so a file whose extension
is unmapped (here `d.txt` under the mapping `jpg → Images`) appears in no
group at all. -/
theorem claim1_counterexample :
    ¬ (∀ (m : List (String × String)) (listing : List Entry),
        (listing.map Entry.name).Nodup →
        ∀ e ∈ listing, e.isFile = true →
          countName (allFiles (categorize (mkExtMap m) listing)) e.name = 1) := by
  intro hclaim
  have h := hclaim [("jpg", "Images")] [Entry.mk "d.txt" true] (by decide)
    (Entry.mk "d.txt" true) (List.mem_singleton.mpr rfl) rfl
  have h0 : countName (allFiles (categorize (mkExtMap [("jpg", "Images")])
      [Entry.mk "d.txt" true])) (Entry.mk "d.txt" true).name = 0 := by decide
  rw [h0] at h
  cases h

/-- Claim C1 (amended): in a listing with distinct names, an entry appears
in the groups of `categorize` exactly once when it is a regular file whose
normalized extension has a mapping entry, and zero times otherwise — in
particular directories and unmapped files appear in no group. -/
theorem claim1_mapped_files_exactly_once (m : List (String × String))
    (listing : List Entry) (hnd : (listing.map Entry.name).Nodup)
    (e : Entry) (he : e ∈ listing) :
    countName (allFiles (categorize (mkExtMap m) listing)) e.name
      = if e.isFile && (dictLookup (mkExtMap m) (fileExt e.name)).isSome
        then 1 else 0 := by
  rw [categorize_count]
  exact filter_name_unique (classified (mkExtMap m)) listing hnd e he

/-- Witness for the amended C1 at the section-8 example: `a.jpg` is mapped
and appears exactly once. -/
theorem claim1_witness :
    countName (allFiles (categorize (mkExtMap exampleMap) exampleListing))
        (Entry.mk "a.jpg" true).name = 1 := by
  have h := claim1_mapped_files_exactly_once exampleMap exampleListing (by decide)
    (Entry.mk "a.jpg" true) (by decide)
  rw [h]
  decide

/-- Claim C2, as stated, is false on this code: with a regular file `Images`
occupying the target path, `done` raises an uncaught `FileExistsError` at
the `mkdir` call (which sits outside the `try`), so `a.jpg` and `b.JPG` are
never marked failed (no per-file failure is recorded at all) and `c.pdf`
does not move into `Documents` — it is still a file at the root. -/
theorem claim2_counterexample :
    (done exampleMap (DirState.dir collisionFS) noFail).failures = []
    ∧ inSub (finalFS (done exampleMap (DirState.dir collisionFS) noFail))
        "Documents" "c.pdf" = false
    ∧ hasRootFile (finalFS (done exampleMap (DirState.dir collisionFS) noFail))
        "c.pdf" = true
    ∧ (done exampleMap (DirState.dir collisionFS) noFail).exn
        = some PyExn.fileExists := by
  decide

/-- Claim C2 (amended): when the subfolder of the first group cannot be
created — for example because a file with that name already exists — `done`
aborts at once with the uncaught exception: the filesystem is left exactly
as it was, no file of any group is moved, and no file is reported failed. -/
theorem claim2_mkdir_failure_aborts_done (m : List (String × String)) (fs : FS)
    (extFail : String → Bool) (folder : String) (files : List String)
    (rest : List (String × List String)) (ex : PyExn)
    (hplan : categorize (mkExtMap m) fs.root = (folder, files) :: rest)
    (hmk : pyMkdirExistOk fs folder = Except.error ex) :
    done m (DirState.dir fs) extFail = ⟨DirState.dir fs, [], some ex⟩ := by
  have hdone : done m (DirState.dir fs) extFail
      = ⟨DirState.dir (doneGo extFail (categorize (mkExtMap m) fs.root) fs []).1,
         (doneGo extFail (categorize (mkExtMap m) fs.root) fs []).2.1,
         (doneGo extFail (categorize (mkExtMap m) fs.root) fs []).2.2⟩ := rfl
  rw [hdone, hplan, doneGo_cons]
  simp only [hmk]

/-- Witness for the amended C2 at the section-8 collision scenario. -/
theorem claim2_witness :
    done exampleMap (DirState.dir collisionFS) noFail
      = ⟨DirState.dir collisionFS, [], some PyExn.fileExists⟩ :=
  claim2_mkdir_failure_aborts_done exampleMap collisionFS noFail "Images"
    ["a.jpg", "b.JPG"] [("Documents", ["c.pdf"])] PyExn.fileExists
    (by rfl) (by rfl)

/-- Claim C3: `done` plans with exactly the grouping `preview` computes on
the same snapshot (it calls the same `categorize` once, before any move),
and — whenever the run is not aborted by a subfolder-creation failure and
the individual rename does not raise — each file listed under a folder of
that grouping ends up inside that folder's subdirectory under its original
base name, and is no longer a file at the root. -/
theorem claim3_apply_refines_preview (m : List (String × String)) (fs : FS)
    (extFail : String → Bool) (plan : List (String × List String))
    (hnd : (rootNames fs).Nodup)
    (hplan : (previewOp m (DirState.dir fs)).1 = Except.ok plan)
    (hexn : (done m (DirState.dir fs) extFail).exn = none)
    (folder : String) (files : List String) (f : String)
    (hmem : (folder, files) ∈ plan) (hf : f ∈ files) (hok : extFail f = false) :
    inSub (finalFS (done m (DirState.dir fs) extFail)) folder f = true
    ∧ hasRootFile (finalFS (done m (DirState.dir fs) extFail)) f = false := by
  have hpl : (Except.ok (categorize (mkExtMap m) fs.root)
        : Except PyExn (List (String × List String)))
      = Except.ok plan := by
    rw [← hplan]
    rfl
  have hplan2 : categorize (mkExtMap m) fs.root = plan := by
    injection hpl
  have hnd2 : (fs.root.map Entry.name).Nodup := hnd
  have hmem2 : (folder, files) ∈ categorize (mkExtMap m) fs.root := by
    rw [hplan2]
    exact hmem
  have hcount := plan_count_one (mkExtMap m) fs folder f files hnd2 hmem2 hf
  have hroot := plan_hasRootFile (mkExtMap m) fs folder f files hmem2 hf
  have hexn2 : (doneGo extFail (categorize (mkExtMap m) fs.root) fs []).2.2 = none := hexn
  have hspec := doneGo_spec extFail f folder (categorize (mkExtMap m) fs.root)
    files fs [] hmem2 hf hcount hroot hexn2
  exact hspec.2 hok

/-- Witness for C3 at the section-8 example with no failing rename. -/
theorem claim3_witness :
    inSub (finalFS (done exampleMap (DirState.dir exampleFS) noFail))
      "Images" "a.jpg" = true
    ∧ hasRootFile (finalFS (done exampleMap (DirState.dir exampleFS) noFail))
      "a.jpg" = false :=
  claim3_apply_refines_preview exampleMap exampleFS noFail
    [("Images", ["a.jpg", "b.JPG"]), ("Documents", ["c.pdf"])]
    (by decide) (by rfl) (by decide)
    "Images" ["a.jpg", "b.JPG"] "a.jpg" (by decide) (by decide) rfl

/-- Claim C4: a regular file whose normalized extension has no entry in the
mapping is left untouched in its original place by `done` — its root entry
is still present afterwards, whatever the directory and mapping (and even
if the run aborts midway). -/
theorem claim4_unmapped_left_in_place (m : List (String × String)) (fs : FS)
    (extFail : String → Bool) (hnd : (rootNames fs).Nodup)
    (e : Entry) (he : e ∈ fs.root) (hfile : e.isFile = true)
    (hun : dictLookup (mkExtMap m) (fileExt e.name) = none) :
    e ∈ (finalFS (done m (DirState.dir fs) extFail)).root := by
  have hnd2 : (fs.root.map Entry.name).Nodup := hnd
  have hna : e.name ∉ allFiles (categorize (mkExtMap m) fs.root) := by
    intro hmem
    rcases mem_allFiles_exists_entry (mkExtMap m) fs.root e.name hmem
      with ⟨e2, he2, hname, hcl⟩
    have he2e : e2 = e := List.inj_on_of_nodup_map hnd2 he2 he hname
    rw [he2e] at hcl
    unfold classified at hcl
    rw [hun] at hcl
    simp at hcl
  exact doneGo_entry extFail e (categorize (mkExtMap m) fs.root) fs [] he hna

/-- Witness for C4: `d.txt` (extension `txt`, unmapped) stays at the root. -/
theorem claim4_witness :
    Entry.mk "d.txt" true
      ∈ (finalFS (done exampleMap (DirState.dir exampleFS) noFail)).root :=
  claim4_unmapped_left_in_place exampleMap exampleFS noFail (by decide)
    (Entry.mk "d.txt" true) (by decide) rfl (by decide)

/-- Claim C5: in a run of `done` that is not aborted by a subfolder-creation
failure, a file whose individual rename raises gets its own failure dialog
recorded, and every other planned file with a non-raising rename is still
processed and moved — one failed move never stops the rest of the batch. -/
theorem claim5_move_failure_isolated (m : List (String × String)) (fs : FS)
    (extFail : String → Bool) (plan : List (String × List String))
    (hnd : (rootNames fs).Nodup)
    (hplan : (previewOp m (DirState.dir fs)).1 = Except.ok plan)
    (hexn : (done m (DirState.dir fs) extFail).exn = none) :
    (∀ folder files f, (folder, files) ∈ plan → f ∈ files → extFail f = true →
      f ∈ (done m (DirState.dir fs) extFail).failures)
    ∧ (∀ folder files f, (folder, files) ∈ plan → f ∈ files → extFail f = false →
      inSub (finalFS (done m (DirState.dir fs) extFail)) folder f = true) := by
  have hpl : (Except.ok (categorize (mkExtMap m) fs.root)
        : Except PyExn (List (String × List String)))
      = Except.ok plan := by
    rw [← hplan]
    rfl
  have hplan2 : categorize (mkExtMap m) fs.root = plan := by
    injection hpl
  have hnd2 : (fs.root.map Entry.name).Nodup := hnd
  have hexn2 : (doneGo extFail (categorize (mkExtMap m) fs.root) fs []).2.2 = none := hexn
  constructor
  · intro folder files f hmem hf hfail
    have hmem2 : (folder, files) ∈ categorize (mkExtMap m) fs.root := by
      rw [hplan2]
      exact hmem
    have hcount := plan_count_one (mkExtMap m) fs folder f files hnd2 hmem2 hf
    have hroot := plan_hasRootFile (mkExtMap m) fs folder f files hmem2 hf
    exact (doneGo_spec extFail f folder (categorize (mkExtMap m) fs.root)
      files fs [] hmem2 hf hcount hroot hexn2).1 hfail
  · intro folder files f hmem hf hok
    have hmem2 : (folder, files) ∈ categorize (mkExtMap m) fs.root := by
      rw [hplan2]
      exact hmem
    have hcount := plan_count_one (mkExtMap m) fs folder f files hnd2 hmem2 hf
    have hroot := plan_hasRootFile (mkExtMap m) fs folder f files hmem2 hf
    exact ((doneGo_spec extFail f folder (categorize (mkExtMap m) fs.root)
      files fs [] hmem2 hf hcount hroot hexn2).2 hok).1

/-- Witness for C5: with only the rename of `b.JPG` raising, `b.JPG` is
recorded failed while `c.pdf` still moves into `Documents`. -/
theorem claim5_witness :
    "b.JPG" ∈ (done exampleMap (DirState.dir exampleFS) failB).failures
    ∧ inSub (finalFS (done exampleMap (DirState.dir exampleFS) failB))
        "Documents" "c.pdf" = true := by
  have h := claim5_move_failure_isolated exampleMap exampleFS failB
    [("Images", ["a.jpg", "b.JPG"]), ("Documents", ["c.pdf"])]
    (by decide) (by rfl) (by decide)
  exact ⟨h.1 "Images" ["a.jpg", "b.JPG"] "b.JPG" (by decide) (by decide) (by decide),
    h.2 "Documents" ["c.pdf"] "c.pdf" (by decide) (by decide) (by decide)⟩

/-- Claim C6: on a missing path or a path that is not a directory, both the
preview call and `done` raise immediately (`FileNotFoundError` resp.
`NotADirectoryError`, the DirectoryNotFound class of the spec), before any
mutation: the directory state is returned unchanged and no move failure is
recorded. -/
theorem claim6_bad_directory_aborts (m : List (String × String))
    (extFail : String → Bool) (d : DirState)
    (hbad : d = DirState.missing ∨ d = DirState.notDir) :
    (∃ ex : PyExn, (previewOp m d).1 = Except.error ex ∧ (previewOp m d).2 = d)
    ∧ (∃ ex : PyExn, done m d extFail = ⟨d, [], some ex⟩) := by
  rcases hbad with rfl | rfl
  · exact ⟨⟨PyExn.fileNotFound, rfl, rfl⟩, PyExn.fileNotFound, rfl⟩
  · exact ⟨⟨PyExn.notADirectory, rfl, rfl⟩, PyExn.notADirectory, rfl⟩

/-- Witness for C6 at the missing-path state. -/
theorem claim6_witness :
    (∃ ex : PyExn, (previewOp exampleMap DirState.missing).1 = Except.error ex
      ∧ (previewOp exampleMap DirState.missing).2 = DirState.missing)
    ∧ (∃ ex : PyExn, done exampleMap DirState.missing noFail
        = ⟨DirState.missing, [], some ex⟩) :=
  claim6_bad_directory_aborts exampleMap noFail DirState.missing (Or.inl rfl)

/-- Claim C7: on the section-8 directory and mapping, preview yields the
group `Images` with `["a.jpg", "b.JPG"]` and the group `Documents` with
`["c.pdf"]`: extension matching is case-insensitive (`b.JPG` lands in
`Images`) while the file names keep their original case. -/
theorem claim7_preview_example :
    previewOp exampleMap (DirState.dir exampleFS)
      = (Except.ok [("Images", ["a.jpg", "b.JPG"]), ("Documents", ["c.pdf"])],
         DirState.dir exampleFS) := by
  rfl

/-- Claim C8: the preview operation never mutates the filesystem — the
directory state after the call is the one before it, for every mapping and
every directory state. -/
theorem claim8_preview_no_mutation :
    ∀ (m : List (String × String)) (d : DirState), (previewOp m d).2 = d := by
  intro m d
  cases d <;> rfl

/-- Claim C9: when two user-supplied entries normalize to the same key, the
constructed extension map silently keeps the folder of the entry processed
last (construction is total — it never fails or reports the conflict):
after any earlier entries, inserting `(k1, v1)` then `(k2, v2)` with equal
normalized keys makes the lookup return `v2`. -/
theorem claim9_duplicate_keys_last_wins (es : List (String × String))
    (k1 v1 k2 v2 : String) (h : normalizeKey k1 = normalizeKey k2) :
    dictLookup (mkExtMap (es ++ [(k1, v1), (k2, v2)])) (normalizeKey k1)
      = some v2 := by
  have hstep : mkExtMap (es ++ [(k1, v1), (k2, v2)])
      = dictInsert (dictInsert (mkExtMap es) (normalizeKey k1) v1)
          (normalizeKey k2) v2 := by
    unfold mkExtMap
    rw [List.foldl_append]
    rfl
  rw [hstep, h]
  exact dictLookup_dictInsert_self _ _ _

/-- Witness for C9: `"TXT"` then `".txt"` both normalize to `txt`; only the
folder of the later entry survives. -/
theorem claim9_witness :
    dictLookup (mkExtMap [("TXT", "TextA"), (".txt", "TextB")])
      (normalizeKey "TXT") = some "TextB" :=
  claim9_duplicate_keys_last_wins [] "TXT" "TextA" ".txt" "TextB" (by decide)

/-- Claim C10: key normalization strips every leading dot, so a key of only
dots normalizes to the empty string; the computed extension is empty for
names without a dot and for dot-prefixed names such as `.gitignore`; a name
with a non-empty `suffix` always has a non-empty computed extension, so the
empty key never matches a file with a real extension (its lookup in a map
holding only the empty key is `none`). -/
theorem claim10_dot_keys_empty_extension :
    (∀ k : String, (∀ ch ∈ k.data, ch = '.') → normalizeKey k = "")
    ∧ (∀ name : String, '.' ∉ name.data → fileExt name = "")
    ∧ (∀ rest : List Char, '.' ∉ rest → fileExt ⟨'.' :: rest⟩ = "")
    ∧ (∀ name : String, pySuffix name ≠ "" → fileExt name ≠ "")
    ∧ (∀ v name : String, pySuffix name ≠ "" →
        dictLookup [("", v)] (fileExt name) = none) := by
  refine ⟨normalizeKey_all_dots, fileExt_of_no_dot, fileExt_dotfile,
    fileExt_ne_empty_of_suffix, ?_⟩
  intro v name hsuf
  have hne : fileExt name ≠ "" := fileExt_ne_empty_of_suffix name hsuf
  unfold dictLookup
  rw [if_neg (fun h2 => hne h2.symm)]
  rfl

/-- Witness for C10 at concrete inputs: `"..."`, `README`, `.gitignore`
and `a.JPG`. -/
theorem claim10_witness :
    normalizeKey "..." = ""
    ∧ fileExt "README" = ""
    ∧ fileExt ⟨'.' :: "gitignore".data⟩ = ""
    ∧ fileExt "a.JPG" ≠ ""
    ∧ dictLookup [("", "NoExt")] (fileExt "a.JPG") = none := by
  have h := claim10_dot_keys_empty_extension
  exact ⟨h.1 "..." (by decide), h.2.1 "README" (by decide),
    h.2.2.1 "gitignore".data (by decide), h.2.2.2.1 "a.JPG" (by decide),
    h.2.2.2.2 "NoExt" "a.JPG" (by decide)⟩

end FileOrganiser
